import Mathlib

set_option autoImplicit false

/-!
A verification development for the requirement-machine term rewriting
system declared in `lib/AST/RequirementMachine/RewriteSystem.h`: rules,
rewrite steps and paths, term simplification, and the bounded
Knuth-Bendix-style completion loop.

The term/symbol algebra and its total order are external collaborators
(`Symbol.h` / `Term.h`); they are modelled here concretely by atoms
identified by natural numbers plus concrete-type symbols carrying
substitution slots, ordered shortlex via an injective key.  Method
bodies that live outside the header (`RewriteSystem.cpp`) are modelled
from the specification; each such definition says so in its doc comment.
-/

namespace Rewriting

/-- Modelled from the spec: the external term algebra (`Symbol.h` and
`Term.h` are collaborators outside the given header).  A symbol is an
atomic path element identified by a natural number, or a concrete-type
symbol carrying substitution slots, each slot a path of atom
identifiers. -/
inductive Sym where
  | atom : Nat → Sym
  | concrete : Nat → List (List Nat) → Sym
deriving DecidableEq, Repr

/-- Injective encoding of a list of naturals into a natural number. -/
def encodeList : List Nat → Nat
  | [] => 0
  | n :: l => Nat.pair n (encodeList l) + 1

theorem encodeList_injective : Function.Injective encodeList := by
  intro x
  induction x with
  | nil =>
    intro y h
    cases y with
    | nil => rfl
    | cons b m => simp [encodeList] at h
  | cons a l ih =>
    intro y h
    cases y with
    | nil => simp [encodeList] at h
    | cons b m =>
      simp only [encodeList, Nat.add_right_cancel_iff] at h
      obtain ⟨h1, h2⟩ := Nat.pair_eq_pair.mp h
      rw [h1, ih h2]

/-- Injective key for symbols: atoms map to even numbers, concrete
symbols to odd numbers via pairing. -/
def Sym.key : Sym → Nat
  | .atom n => 2 * n
  | .concrete c subs => 2 * Nat.pair c (encodeList (subs.map encodeList)) + 1

theorem Sym.key_injective : Function.Injective Sym.key := by
  intro a b h
  cases a with
  | atom n =>
    cases b with
    | atom m =>
      simp only [Sym.key] at h
      have hnm : n = m := by omega
      rw [hnm]
    | concrete c subs =>
      simp only [Sym.key] at h
      exact absurd h (by omega)
  | concrete c subs =>
    cases b with
    | atom m =>
      simp only [Sym.key] at h
      exact absurd h (by omega)
    | concrete d subs' =>
      simp only [Sym.key] at h
      have hp : Nat.pair c (encodeList (subs.map encodeList))
          = Nat.pair d (encodeList (subs'.map encodeList)) := by omega
      obtain ⟨h1, h2⟩ := Nat.pair_eq_pair.mp hp
      have h3 : subs.map encodeList = subs'.map encodeList :=
        encodeList_injective h2
      have h4 : subs = subs' := by
        have : Function.Injective (List.map encodeList) :=
          List.map_injective_iff.mpr encodeList_injective
        exact this h3
      rw [h1, h4]

/-- Lexicographic comparison on lists of naturals. -/
def lexLt : List Nat → List Nat → Bool
  | [], [] => false
  | [], _ :: _ => true
  | _ :: _, [] => false
  | a :: x, b :: y => if a < b then true else if a = b then lexLt x y else false

/-- Shortlex: compare lengths first, then lexicographically. -/
def shortlex (x y : List Nat) : Bool :=
  decide (x.length < y.length) || (decide (x.length = y.length) && lexLt x y)

/-- The key sequence of a term. -/
def keyList (t : List Sym) : List Nat := t.map Sym.key

/-- The linear order on terms used to orient rewrite rules, modelled as
shortlex over symbol keys. -/
def TermLt (a b : List Sym) : Prop := shortlex (keyList a) (keyList b) = true

instance (a b : List Sym) : Decidable (TermLt a b) := by
  unfold TermLt
  infer_instance

theorem lexLt_irrefl (x : List Nat) : lexLt x x = false := by
  induction x with
  | nil => rfl
  | cons a l ih => simp [lexLt, ih]

theorem lexLt_total {x y : List Nat} (hlen : x.length = y.length)
    (hne : x ≠ y) : lexLt x y = true ∨ lexLt y x = true := by
  induction x generalizing y with
  | nil =>
    cases y with
    | nil => exact absurd rfl hne
    | cons b m => simp at hlen
  | cons a l ih =>
    cases y with
    | nil => simp at hlen
    | cons b m =>
      simp only [List.length_cons, Nat.add_right_cancel_iff] at hlen
      by_cases hab : a = b
      · subst hab
        have hne' : l ≠ m := by
          intro h; exact hne (by rw [h])
        rcases ih hlen hne' with h | h
        · left; simp [lexLt, h]
        · right; simp [lexLt, h]
      · rcases Nat.lt_or_ge a b with h | h
        · left; simp [lexLt, h]
        · have hba : b < a := Nat.lt_of_le_of_ne h (fun hc => hab hc.symm)
          right; simp [lexLt, hba]

theorem TermLt_irrefl (t : List Sym) : ¬ TermLt t t := by
  unfold TermLt shortlex
  simp [lexLt_irrefl]

theorem keyList_injective : Function.Injective keyList := by
  intro a b h
  exact List.map_injective_iff.mpr Sym.key_injective h

theorem TermLt_total {a b : List Sym} (hne : a ≠ b) :
    TermLt a b ∨ TermLt b a := by
  unfold TermLt shortlex
  rcases Nat.lt_trichotomy (keyList a).length (keyList b).length with h | h | h
  · left; simp [h]
  · have hne' : keyList a ≠ keyList b := fun hc => hne (keyList_injective hc)
    rcases lexLt_total h hne' with hl | hl
    · left; simp [h, hl]
    · right; simp [h.symm, hl]
  · right; simp [h]

/-- Base-M value of a key list, most significant first. -/
def valM (M : Nat) : List Nat → Nat
  | [] => 0
  | a :: x => a * M ^ x.length + valM M x

/-- Sum of the powers M^0 + ... + M^(n-1): the number of key lists of
length below n over an alphabet of M keys. -/
def geom (M : Nat) : Nat → Nat
  | 0 => 0
  | n + 1 => geom M n + M ^ n

/-- Rank of a key list in the shortlex order over an alphabet of M keys:
a strictly decreasing measure along rewriting. -/
def encodeM (M : Nat) (x : List Nat) : Nat := geom M x.length + valM M x

theorem valM_lt_pow {M : Nat} {x : List Nat} (h : ∀ a ∈ x, a < M) :
    valM M x < M ^ x.length := by
  induction x with
  | nil => simp [valM]
  | cons a l ih =>
    have ha : a < M := h a (by simp)
    have hl : valM M l < M ^ l.length := ih (fun b hb => h b (by simp [hb]))
    have h1 : a * M ^ l.length + valM M l < (a + 1) * M ^ l.length := by
      calc a * M ^ l.length + valM M l
          < a * M ^ l.length + M ^ l.length := by omega
        _ = (a + 1) * M ^ l.length := by ring
    have h2 : (a + 1) * M ^ l.length ≤ M * M ^ l.length :=
      Nat.mul_le_mul_right _ ha
    calc valM M (a :: l) = a * M ^ l.length + valM M l := rfl
      _ < M * M ^ l.length := lt_of_lt_of_le h1 h2
      _ = M ^ (a :: l).length := by rw [List.length_cons, pow_succ, Nat.mul_comm]

theorem geom_mono {M : Nat} : ∀ {n m : Nat}, n ≤ m → geom M n ≤ geom M m := by
  intro n m h
  induction m with
  | zero => simp_all [geom]
  | succ k ih =>
    rcases Nat.lt_or_ge n (k + 1) with h' | h'
    · have := ih (by omega)
      simp only [geom]
      omega
    · have : n = k + 1 := by omega
      rw [this]

theorem valM_lt_of_lexLt {M : Nat} : ∀ {x y : List Nat},
    x.length = y.length → lexLt x y = true → (∀ a ∈ x, a < M) →
    valM M x < valM M y := by
  intro x
  induction x with
  | nil =>
    intro y hlen hlex
    cases y with
    | nil => simp [lexLt] at hlex
    | cons b m => simp at hlen
  | cons a l ih =>
    intro y hlen hlex hb
    cases y with
    | nil => simp at hlen
    | cons b m =>
      simp only [List.length_cons, Nat.add_right_cancel_iff] at hlen
      simp only [lexLt] at hlex
      by_cases hab : a < b
      · have ha : a < M := hb a (by simp)
        have hvl : valM M l < M ^ l.length :=
          valM_lt_pow (fun c hc => hb c (by simp [hc]))
        calc valM M (a :: l) = a * M ^ l.length + valM M l := rfl
          _ < (a + 1) * M ^ l.length := by ring_nf; omega
          _ ≤ b * M ^ l.length := Nat.mul_le_mul_right _ (by omega)
          _ ≤ b * M ^ m.length + valM M m := by rw [hlen]; omega
          _ = valM M (b :: m) := rfl
      · simp only [if_neg hab] at hlex
        by_cases hab' : a = b
        · simp only [if_pos hab'] at hlex
          subst hab'
          have := ih hlen hlex (fun c hc => hb c (by simp [hc]))
          calc valM M (a :: l) = a * M ^ l.length + valM M l := rfl
            _ < a * M ^ l.length + valM M m := by omega
            _ = valM M (a :: m) := by rw [hlen]; rfl
        · simp [if_neg hab'] at hlex

theorem encodeM_lt_of_shortlex {M : Nat} {x y : List Nat}
    (hs : shortlex x y = true) (hx : ∀ a ∈ x, a < M) :
    encodeM M x < encodeM M y := by
  unfold shortlex at hs
  simp only [Bool.or_eq_true, Bool.and_eq_true, decide_eq_true_eq] at hs
  rcases hs with h | ⟨hlen, hlex⟩
  · have h1 : valM M x < M ^ x.length := valM_lt_pow hx
    have h2 : geom M (x.length + 1) ≤ geom M y.length := geom_mono h
    calc encodeM M x = geom M x.length + valM M x := rfl
      _ < geom M x.length + M ^ x.length := by omega
      _ = geom M (x.length + 1) := rfl
      _ ≤ geom M y.length := h2
      _ ≤ encodeM M y := Nat.le_add_right _ _
  · have := valM_lt_of_lexLt hlen hlex hx
    unfold encodeM
    rw [hlen]
    omega

theorem encodeM_pos {M : Nat} (hM : 0 < M) {x : List Nat} (hx : x ≠ []) :
    0 < encodeM M x := by
  cases x with
  | nil => exact absurd rfl hx
  | cons a l =>
    have : 0 < M ^ l.length := Nat.pos_pow_of_pos _ hM
    unfold encodeM geom
    have : geom M (l.length) + M ^ l.length > 0 := by omega
    simp only [List.length_cons]
    unfold geom
    omega

theorem lexLt_append {x y s s' : List Nat} (hlen : x.length = y.length)
    (h : lexLt x y = true) : lexLt (x ++ s) (y ++ s') = true := by
  induction x generalizing y with
  | nil =>
    cases y with
    | nil => simp [lexLt] at h
    | cons b m => simp at hlen
  | cons a l ih =>
    cases y with
    | nil => simp at hlen
    | cons b m =>
      simp only [List.length_cons, Nat.add_right_cancel_iff] at hlen
      simp only [lexLt] at h
      simp only [List.cons_append, lexLt]
      by_cases hab : a < b
      · simp [hab]
      · simp only [if_neg hab] at h ⊢
        by_cases hab' : a = b
        · simp only [if_pos hab'] at h ⊢
          exact ih hlen h
        · simp [if_neg hab'] at h

theorem lexLt_same_pre (p : List Nat) {x y : List Nat}
    (h : lexLt x y = true) : lexLt (p ++ x) (p ++ y) = true := by
  induction p with
  | nil => simpa
  | cons c q ih =>
    simp only [List.cons_append, lexLt]
    simp [ih]

theorem shortlex_context {p s r l : List Nat}
    (h : shortlex r l = true) : shortlex (p ++ r ++ s) (p ++ l ++ s) = true := by
  unfold shortlex at h ⊢
  simp only [Bool.or_eq_true, Bool.and_eq_true, decide_eq_true_eq,
    List.length_append] at h ⊢
  rcases h with h | ⟨hlen, hlex⟩
  · left; omega
  · right
    refine ⟨by omega, ?_⟩
    have h1 : lexLt (r ++ s) (l ++ s) = true := lexLt_append hlen hlex
    have h2 : lexLt (p ++ (r ++ s)) (p ++ (l ++ s)) = true :=
      lexLt_same_pre p h1
    simpa [List.append_assoc] using h2

theorem TermLt_context {r l : List Sym} (p s : List Sym)
    (h : TermLt r l) : TermLt (p ++ r ++ s) (p ++ l ++ s) := by
  unfold TermLt keyList at h ⊢
  simp only [List.map_append]
  exact shortlex_context h

/-- A rewrite rule that replaces occurrences of LHS with RHS, with the
soft-delete flag.  Mirrors class `Rule` in the header. -/
structure Rule where
  lhs : List Sym
  rhs : List Sym
  deleted : Bool
deriving DecidableEq, Repr

/-- The constructor `Rule(Term lhs, Term rhs)`: stores both sides as
given and starts out non-deleted.  It performs no order check. -/
def Rule.make (lhs rhs : List Sym) : Rule := ⟨lhs, rhs, false⟩

def Rule.getLHS (r : Rule) : List Sym := r.lhs

def Rule.getRHS (r : Rule) : List Sym := r.rhs

/-- `Rule::isDeleted`. -/
def Rule.isDeleted (r : Rule) : Bool := r.deleted

/-- `Rule::markDeleted`: asserts the rule is not already deleted
(modelled as returning `none` on the assertion failure), then sets the
flag. -/
def Rule.markDeleted (r : Rule) : Option Rule :=
  if r.deleted then none else some { r with deleted := true }

/-- `Rule::getDepth`: the length of the left hand side. -/
def Rule.getDepth (r : Rule) : Nat := r.lhs.length

/-- The two step kinds of `RewriteStep`. -/
inductive StepKind where
  | ApplyRewriteRule
  | AdjustConcreteType
deriving DecidableEq, Repr

/-- `RewriteStep`: one elementary rewrite, with kind, offset, rule index
and direction.  The C++ `Offset` and `RuleID` members are 15-bit
bitfields; the range checking of the constructor is modelled by
`RewriteStep.make` below, while this structure holds the stored
values. -/
structure RewriteStep where
  kind : StepKind
  offset : Nat
  ruleID : Nat
  inverse : Bool
deriving DecidableEq, Repr

/-- The `RewriteStep` constructor: the bit-field assignments truncate to
15 bits and the asserts `Offset == offset` / `RuleID == ruleID` fail on
overflow (modelled as `none`). -/
def RewriteStep.make (kind : StepKind) (offset ruleID : Nat)
    (inverse : Bool) : Option RewriteStep :=
  if offset % 2 ^ 15 = offset ∧ ruleID % 2 ^ 15 = ruleID then
    some ⟨kind, offset, ruleID, inverse⟩
  else none

/-- `RewriteStep::forRewriteRule`. -/
def RewriteStep.forRewriteRule (offset ruleID : Nat) (inverse : Bool) :
    Option RewriteStep :=
  RewriteStep.make StepKind.ApplyRewriteRule offset ruleID inverse

/-- `RewriteStep::forAdjustment`: an adjustment step with rule id 0. -/
def RewriteStep.forAdjustment (offset : Nat) (inverse : Bool) :
    Option RewriteStep :=
  RewriteStep.make StepKind.AdjustConcreteType offset 0 inverse

/-- `RewriteStep::invert`: flip the direction flag. -/
def RewriteStep.invert (st : RewriteStep) : RewriteStep :=
  { st with inverse := !st.inverse }

/-- `RewritePath`: a sequence of rewrite steps. -/
structure RewritePath where
  steps : List RewriteStep
deriving DecidableEq, Repr

def RewritePath.empty (p : RewritePath) : Bool := p.steps.isEmpty

/-- `RewritePath::add`: push one step at the end. -/
def RewritePath.add (p : RewritePath) (st : RewriteStep) : RewritePath :=
  ⟨p.steps ++ [st]⟩

/-- `RewritePath::append`: plain concatenation, no simplification. -/
def RewritePath.append (p q : RewritePath) : RewritePath :=
  ⟨p.steps ++ q.steps⟩

/-- Modelled from the spec: `RewritePath::invert` (defined out of line in
`RewriteSystem.cpp`) reverses the step order and flips each step's
direction. -/
def RewritePath.invert (p : RewritePath) : RewritePath :=
  ⟨(p.steps.map RewriteStep.invert).reverse⟩

/-- `RewriteSystem`: the rule table, the trie of left hand sides
(modelled as the list of inserted (LHS, rule id) entries; the real trie
is an external lookup accelerator, not decision logic), and the memoized
set of rule-id pairs already checked for overlap. -/
structure RewriteSystem where
  rules : List Rule
  trie : List (List Sym × Nat)
  checked : List (Nat × Nat)
deriving DecidableEq, Repr

/-- `RewriteSystem::getRule`, with the out-of-range access made
explicit. -/
def RewriteSystem.getRule (sys : RewriteSystem) (i : Nat) : Option Rule :=
  sys.rules[i]?

/-- Marking rule `i` deleted inside the system: the rule table keeps its
length, only the flag of entry `i` changes. -/
def RewriteSystem.markDeleted (sys : RewriteSystem) (i : Nat) :
    Option RewriteSystem :=
  match sys.rules[i]? with
  | none => none
  | some r =>
    match r.markDeleted with
    | none => none
    | some r' => some { sys with rules := sys.rules.set i r' }

/-- Decidable matching: does the first list start the second? -/
def isPre {α : Type} [DecidableEq α] : List α → List α → Bool
  | [], _ => true
  | _ :: _, [] => false
  | a :: x, b :: y => if a = b then isPre x y else false

theorem isPre_iff {α : Type} [DecidableEq α] {x y : List α} :
    isPre x y = true ↔ ∃ s, y = x ++ s := by
  induction x generalizing y with
  | nil => simp [isPre]
  | cons a l ih =>
    cases y with
    | nil => simp [isPre]
    | cons b m =>
      by_cases hab : a = b
      · subst hab
        simp only [isPre, if_pos rfl, List.cons_append, List.cons.injEq,
          true_and]
        exact ih
      · simp only [isPre, if_neg hab, List.cons_append, List.cons.injEq]
        constructor
        · intro h; exact absurd h (by simp)
        · rintro ⟨s, hs1, hs2⟩; exact absurd hs1.symm hab

/-- Scan the rule table from index `i` for the first (lowest rule id)
non-deleted rule whose LHS starts the remaining term. -/
def firstRuleAux : List Rule → Nat → List Sym → Option Nat
  | [], _, _ => none
  | r :: rs, i, rem =>
    if r.deleted = false ∧ isPre r.lhs rem = true then some i
    else firstRuleAux rs (i + 1) rem

/-- Modelled from the spec: the trie lookup used by `simplify` (the trie
itself is an external accelerator).  Returns the leftmost offset and,
there, the lowest rule id whose LHS occurs at that offset. -/
def findRewrite (rules : List Rule) : List Sym → Option (Nat × Nat)
  | [] => none
  | s :: rest =>
    match firstRuleAux rules 0 (s :: rest) with
    | some i => some (0, i)
    | none =>
      match findRewrite rules rest with
      | some (o, i) => some (o + 1, i)
      | none => none

/-- Replace the occurrence of `lhs` at offset `off` by `rhs`. -/
def applyRuleAt (t lhs rhs : List Sym) (off : Nat) : List Sym :=
  t.take off ++ rhs ++ t.drop (off + lhs.length)

/-- One pass of `simplify`: find the leftmost-offset, lowest-id
applicable non-deleted rule and apply it, reporting offset, rule id and
the rewritten term. -/
def rewriteOnce (sys : RewriteSystem) (t : List Sym) :
    Option (Nat × Nat × List Sym) :=
  match findRewrite sys.rules t with
  | none => none
  | some (off, i) =>
    match sys.rules[i]? with
    | none => none
    | some r => some (off, i, applyRuleAt t r.lhs r.rhs off)

/-- Fuel-indexed simplification loop, also collecting the applied steps
in application order. -/
def simplifyFuel (sys : RewriteSystem) : Nat → List Sym → List Sym × List RewriteStep
  | 0, t => (t, [])
  | fuel + 1, t =>
    match rewriteOnce sys t with
    | none => (t, [])
    | some (off, i, t') =>
      let res := simplifyFuel sys fuel t'
      (res.1, ⟨StepKind.ApplyRewriteRule, off, i, false⟩ :: res.2)

/-- Largest entry of a key list. -/
def maxKey (l : List Nat) : Nat := l.foldr max 0

/-- A strict bound on every symbol key in the starting term and in every
rule right hand side: rewriting never introduces a key at or above it. -/
def sysBound (sys : RewriteSystem) (t : List Sym) : Nat :=
  maxKey (keyList t ++ (sys.rules.map fun r => keyList r.rhs).flatten) + 1

/-- Fuel sufficient for `simplifyFuel` to reach a normal form: the
shortlex rank of the starting term. -/
def fuelBound (sys : RewriteSystem) (t : List Sym) : Nat :=
  encodeM (sysBound sys t) (keyList t)

/-- Modelled from the spec: `RewriteSystem::simplify` (defined out of
line in `RewriteSystem.cpp`) repeatedly applies the leftmost-offset,
lowest-rule-id non-deleted rule until no rule applies, recording each
applied step; the appended path is returned alongside the term. -/
def RewriteSystem.simplify (sys : RewriteSystem) (t : List Sym) :
    List Sym × List RewriteStep :=
  simplifyFuel sys (fuelBound sys t) t

/-- The orientation invariant: every non-deleted rule rewrites to a
strictly smaller term. -/
def WellFormed (sys : RewriteSystem) : Prop :=
  ∀ r ∈ sys.rules, r.deleted = false → TermLt r.rhs r.lhs

instance (sys : RewriteSystem) : Decidable (WellFormed sys) := by
  unfold WellFormed
  infer_instance

/-- `l` occurs as a (contiguous) subterm of `t`. -/
def SubtermOf (l t : List Sym) : Prop := ∃ p s, t = p ++ l ++ s

/-- All-atoms view of a term segment, used by the adjustment step. -/
def atomIds : List Sym → Option (List Nat)
  | [] => some []
  | Sym.atom n :: rest => (atomIds rest).map (n :: ·)
  | Sym.concrete _ _ :: _ => none

/-- Modelled from the spec: applying one `RewriteStep` to a term.  An
`ApplyRewriteRule` step replaces the occurrence of the rule's source
side (LHS if forward, RHS if inverse) at the stored offset by the target
side; a mismatch is a consistency fault (`none`).  An
`AdjustConcreteType` step shifts the prefix of the stored length into
each substitution slot of the concrete-type symbol ending the term
(inverse: strips that prefix back out). -/
def applyStep (sys : RewriteSystem) (t : List Sym) (st : RewriteStep) :
    Option (List Sym) :=
  match st.kind with
  | StepKind.ApplyRewriteRule =>
    match sys.rules[st.ruleID]? with
    | none => none
    | some r =>
      let src := if st.inverse then r.rhs else r.lhs
      let tgt := if st.inverse then r.lhs else r.rhs
      if isPre src (t.drop st.offset) = true ∧ st.offset ≤ t.length then
        some (t.take st.offset ++ tgt ++ t.drop (st.offset + src.length))
      else none
  | StepKind.AdjustConcreteType =>
    match t.getLast? with
    | some (Sym.concrete c subs) =>
      match atomIds (t.take st.offset) with
      | none => none
      | some pre =>
        if st.inverse then
          if subs.all (fun s => isPre pre s) then
            some (t.dropLast ++
              [Sym.concrete c (subs.map fun s => s.drop pre.length)])
          else none
        else
          some (t.dropLast ++ [Sym.concrete c (subs.map fun s => pre ++ s)])
    | _ => none

/-- Applying the steps of a path in order, failing on the first fault. -/
def applyPath (sys : RewriteSystem) : List Sym → List RewriteStep → Option (List Sym)
  | t, [] => some t
  | t, st :: rest =>
    match applyStep sys t st with
    | none => none
    | some t' => applyPath sys t' rest

/-- One forward rule application somewhere in the term. -/
def OneStep (sys : RewriteSystem) (a b : List Sym) : Prop :=
  ∃ st : RewriteStep, st.kind = StepKind.ApplyRewriteRule ∧
    st.inverse = false ∧ applyStep sys a st = some b

/-- Reachability by zero or more forward rule applications. -/
def Reaches (sys : RewriteSystem) : List Sym → List Sym → Prop :=
  Relation.ReflTransGen (OneStep sys)

/-- Modelled from the spec: `RewriteSystem::addRule` (defined out of
line in `RewriteSystem.cpp`) orients the pair under the term order
(larger side becomes the LHS); equal sides are a no-progress no-op;
otherwise it appends the oriented rule and inserts its LHS into the
trie, returning whether a rule was added.  The optional derivation path
is retained only for later proof construction and is not modelled. -/
def RewriteSystem.addRule (sys : RewriteSystem) (lhs rhs : List Sym) :
    RewriteSystem × Bool :=
  if lhs = rhs then (sys, false)
  else
    let l := if TermLt lhs rhs then rhs else lhs
    let r := if TermLt lhs rhs then lhs else rhs
    ({ sys with
        rules := sys.rules ++ [Rule.make l r],
        trie := sys.trie ++ [(l, sys.rules.length)] }, true)

/-- `RewriteSystem::CompletionResult`. -/
inductive CompletionResult where
  | Success
  | MaxIterations
  | MaxDepth
deriving DecidableEq, Repr

/-- Modelled from the spec: the critical pair (if any) formed by
overlapping `r2`'s LHS at position `i` of `r1`'s LHS — either `r2`'s LHS
is contained in `r1`'s LHS, or a suffix of `r1`'s LHS is a proper prefix
of `r2`'s LHS.  The two components are the terms reached by applying
each rule to the shared superposition. -/
def criticalPairsAt (r1 r2 : Rule) (i : Nat) : Option (List Sym × List Sym) :=
  if i + r2.lhs.length ≤ r1.lhs.length then
    if (r1.lhs.drop i).take r2.lhs.length = r2.lhs then
      some (r1.rhs, r1.lhs.take i ++ r2.rhs ++ r1.lhs.drop (i + r2.lhs.length))
    else none
  else
    if isPre (r1.lhs.drop i) r2.lhs = true then
      some (r1.rhs ++ r2.lhs.drop (r1.lhs.length - i), r1.lhs.take i ++ r2.rhs)
    else none

/-- All critical pairs between two rules. -/
def criticalPairs (r1 r2 : Rule) : List (List Sym × List Sym) :=
  (List.range r1.lhs.length).filterMap (criticalPairsAt r1 r2)

/-- Modelled from the spec: resolve a list of critical pairs.  Each pair
is simplified on both sides; equal normal forms need no new rule (the
recorded homotopy generator is not modelled); otherwise the oriented
candidate is added unless its LHS length exceeds `maxDepth`, which
aborts with the depth flag.  Returns the updated system, whether any
rule was added, and the depth flag. -/
def resolvePairs (maxDepth : Nat) :
    RewriteSystem → List (List Sym × List Sym) → Bool →
    RewriteSystem × Bool × Bool
  | sys, [], added => (sys, added, false)
  | sys, (a, b) :: rest, added =>
    let a' := (sys.simplify a).1
    let b' := (sys.simplify b).1
    if a' = b' then resolvePairs maxDepth sys rest added
    else
      let l := if TermLt a' b' then b' else a'
      if maxDepth < l.length then (sys, added, true)
      else
        let res := sys.addRule a' b'
        resolvePairs maxDepth res.1 rest (added || res.2)

/-- All ordered rule-id pairs below `n`. -/
def allPairs (n : Nat) : List (Nat × Nat) :=
  (List.range n).flatMap fun i => (List.range n).map fun j => (i, j)

/-- Modelled from the spec: one round of the completion loop — gather
the not-yet-checked pairs of non-deleted rules, memoize them as checked,
compute their critical pairs and resolve them.  (The associated-type
merging pass, an operation of the external symbol algebra, is not
modelled.)  Returns the updated system, whether the round added a rule,
and whether the depth bound was exceeded. -/
def completionStep (sys : RewriteSystem) (maxDepth : Nat) :
    RewriteSystem × Bool × Bool :=
  let todo := (allPairs sys.rules.length).filter fun p =>
    decide (¬ p ∈ sys.checked)
  let cands := todo.flatMap fun p =>
    match sys.rules[p.1]?, sys.rules[p.2]? with
    | some r1, some r2 =>
      if r1.deleted = false ∧ r2.deleted = false then criticalPairs r1 r2
      else []
    | _, _ => []
  resolvePairs maxDepth { sys with checked := sys.checked ++ todo } cands false

/-- The iteration loop of completion, with the remaining iteration
budget as fuel and the count of rounds already run. -/
def completeAux (maxDepth : Nat) :
    Nat → RewriteSystem → Nat → RewriteSystem × CompletionResult × Nat
  | 0, sys, used => (sys, CompletionResult.MaxIterations, used)
  | fuel + 1, sys, used =>
    let res := completionStep sys maxDepth
    if res.2.2 then (res.1, CompletionResult.MaxDepth, used + 1)
    else if res.2.1 then completeAux maxDepth fuel res.1 (used + 1)
    else (res.1, CompletionResult.Success, used + 1)

/-- Modelled from the spec: `RewriteSystem::computeConfluentCompletion`
(defined out of line in `RewriteSystem.cpp`) repeats completion rounds
until a round adds no rule (Success), the iteration budget is exhausted
(MaxIterations) or a candidate exceeds the depth bound (MaxDepth),
returning the result together with the number of iterations used (the
mutated system is returned explicitly here). -/
def RewriteSystem.computeConfluentCompletion (sys : RewriteSystem)
    (maxIterations maxDepth : Nat) :
    RewriteSystem × CompletionResult × Nat :=
  completeAux maxDepth maxIterations sys 0

theorem firstRuleAux_none {rs : List Rule} {rem : List Sym} :
    ∀ {i : Nat}, firstRuleAux rs i rem = none →
    ∀ (m : Nat) (r : Rule), rs[m]? = some r →
      ¬(r.deleted = false ∧ isPre r.lhs rem = true) := by
  induction rs with
  | nil =>
    intro i _ m r hm
    simp at hm
  | cons r0 rs' ih =>
    intro i h m r hm
    by_cases hc : r0.deleted = false ∧ isPre r0.lhs rem = true
    · simp [firstRuleAux, hc] at h
    · simp only [firstRuleAux, if_neg hc] at h
      cases m with
      | zero =>
        simp only [List.getElem?_cons_zero, Option.some.injEq] at hm
        rw [← hm]
        exact hc
      | succ m' =>
        simp only [List.getElem?_cons_succ] at hm
        exact ih h m' r hm

theorem firstRuleAux_some {rs : List Rule} {rem : List Sym} :
    ∀ {i j : Nat}, firstRuleAux rs i rem = some j →
    ∃ m r, rs[m]? = some r ∧ r.deleted = false ∧ isPre r.lhs rem = true ∧
      j = i + m := by
  induction rs with
  | nil => intro i j h; simp [firstRuleAux] at h
  | cons r0 rs' ih =>
    intro i j h
    by_cases hc : r0.deleted = false ∧ isPre r0.lhs rem = true
    · simp only [firstRuleAux, if_pos hc, Option.some.injEq] at h
      exact ⟨0, r0, by simp, hc.1, hc.2, by omega⟩
    · simp only [firstRuleAux, if_neg hc] at h
      obtain ⟨m, r, hm, hd, hp, hj⟩ := ih h
      exact ⟨m + 1, r, by simpa using hm, hd, hp, by omega⟩

theorem findRewrite_none {rules : List Rule} {t : List Sym}
    (h : findRewrite rules t = none) :
    ∀ off : Nat, t.drop off = [] ∨
      firstRuleAux rules 0 (t.drop off) = none := by
  induction t with
  | nil => intro off; left; simp
  | cons s rest ih =>
    intro off
    simp only [findRewrite] at h
    cases hf : firstRuleAux rules 0 (s :: rest) with
    | some i => rw [hf] at h; cases h
    | none =>
      rw [hf] at h
      cases hr : findRewrite rules rest with
      | some p => rw [hr] at h; cases h
      | none =>
        cases off with
        | zero => right; simpa using hf
        | succ o => simpa using ih hr o

theorem findRewrite_some {rules : List Rule} {t : List Sym} :
    ∀ {off i : Nat}, findRewrite rules t = some (off, i) →
    t.drop off ≠ [] ∧ firstRuleAux rules 0 (t.drop off) = some i := by
  induction t with
  | nil => intro off i h; simp [findRewrite] at h
  | cons s rest ih =>
    intro off i h
    simp only [findRewrite] at h
    cases hf : firstRuleAux rules 0 (s :: rest) with
    | some i0 =>
      rw [hf] at h
      simp only [Option.some.injEq, Prod.mk.injEq] at h
      obtain ⟨h1, h2⟩ := h
      subst h1; subst h2
      exact ⟨by simp, by simpa using hf⟩
    | none =>
      rw [hf] at h
      cases hr : findRewrite rules rest with
      | some p =>
        rw [hr] at h
        obtain ⟨o0, i0⟩ := p
        simp only [Option.some.injEq, Prod.mk.injEq] at h
        obtain ⟨h1, h2⟩ := h
        subst h1; subst h2
        have := ih hr
        simpa using this
      | none => rw [hr] at h; cases h

theorem rewriteOnce_some {sys : RewriteSystem} {t : List Sym}
    {off i : Nat} {t' : List Sym}
    (h : rewriteOnce sys t = some (off, i, t')) :
    ∃ r, sys.rules[i]? = some r ∧ r.deleted = false ∧
      off ≤ t.length ∧
      t = t.take off ++ r.lhs ++ t.drop (off + r.lhs.length) ∧
      t' = t.take off ++ r.rhs ++ t.drop (off + r.lhs.length) := by
  unfold rewriteOnce at h
  cases hf : findRewrite sys.rules t with
  | none => rw [hf] at h; cases h
  | some p =>
    rw [hf] at h
    obtain ⟨off0, i0⟩ := p
    have h' : (match sys.rules[i0]? with
      | none => none
      | some r => some (off0, i0, applyRuleAt t r.lhs r.rhs off0)) =
        some (off, i, t') := h
    clear h
    cases hr : sys.rules[i0]? with
    | none => rw [hr] at h'; cases h'
    | some r =>
      rw [hr] at h'
      simp only [Option.some.injEq, Prod.mk.injEq] at h'
      obtain ⟨h1, h2, h3⟩ := h'
      obtain ⟨hne, hfa⟩ := findRewrite_some hf
      obtain ⟨m, r', hm, hd, hp, hi⟩ := firstRuleAux_some hfa
      have him : i0 = m := by omega
      have hrr : r' = r := by
        rw [him, hm] at hr
        exact Option.some.inj hr
      have hoff : off0 ≤ t.length := by
        by_contra hc
        have hle : t.length ≤ off0 := by omega
        exact hne (List.drop_eq_nil_of_le hle)
      obtain ⟨q, hq⟩ := isPre_iff.mp hp
      have hdec : t = t.take off0 ++ r.lhs ++ q := by
        conv_lhs => rw [← List.take_append_drop off0 t]
        rw [hq, hrr, List.append_assoc]
      have hqd : q = t.drop (off0 + r.lhs.length) := by
        have hq1 : (t.drop off0).drop r.lhs.length = q := by
          rw [hq, hrr]
          exact List.drop_left r.lhs q
        rw [← hq1, List.drop_drop]
      refine ⟨r, ?_, ?_, ?_, ?_, ?_⟩
      · rw [← h2]; exact hr
      · rw [← hrr]; exact hd
      · rw [← h1]; exact hoff
      · rw [← h1, ← hqd]; exact hdec
      · rw [← h1, ← h3]; rfl

theorem le_maxKey {l : List Nat} {a : Nat} (h : a ∈ l) : a ≤ maxKey l := by
  induction l with
  | nil => cases h
  | cons b l' ih =>
    rcases List.mem_cons.mp h with rfl | h'
    · exact Nat.le_max_left _ _
    · exact le_trans (ih h') (Nat.le_max_right _ _)

theorem keys_lt_sysBound_term (sys : RewriteSystem) (t : List Sym) :
    ∀ k ∈ keyList t, k < sysBound sys t := by
  intro k hk
  have : k ∈ keyList t ++ (sys.rules.map fun r => keyList r.rhs).flatten :=
    List.mem_append_left _ hk
  have := le_maxKey this
  unfold sysBound
  omega

theorem keys_lt_sysBound_rhs {sys : RewriteSystem} (t : List Sym)
    {r : Rule} (hr : r ∈ sys.rules) :
    ∀ k ∈ keyList r.rhs, k < sysBound sys t := by
  intro k hk
  have h1 : keyList r.rhs ∈ sys.rules.map fun r0 => keyList r0.rhs :=
    List.mem_map_of_mem _ hr
  have h2 : k ∈ (sys.rules.map fun r0 => keyList r0.rhs).flatten :=
    List.mem_flatten.mpr ⟨keyList r.rhs, h1, hk⟩
  have := le_maxKey (List.mem_append_right (keyList t) h2)
  unfold sysBound
  omega

theorem simplifyFuel_nf {sys : RewriteSystem} {M : Nat} (hM : 0 < M)
    (hw : WellFormed sys)
    (hrhs : ∀ r ∈ sys.rules, ∀ k ∈ keyList r.rhs, k < M) :
    ∀ fuel t, (∀ k ∈ keyList t, k < M) → encodeM M (keyList t) ≤ fuel →
      rewriteOnce sys (simplifyFuel sys fuel t).1 = none := by
  intro fuel
  induction fuel with
  | zero =>
    intro t hk he
    have ht : t = [] := by
      by_contra hne
      have hkne : keyList t ≠ [] := by
        intro hc
        apply hne
        cases t with
        | nil => rfl
        | cons a l => simp [keyList] at hc
      have := encodeM_pos hM hkne
      omega
    subst ht
    rfl
  | succ fuel ih =>
    intro t hk he
    cases hro : rewriteOnce sys t with
    | none =>
      have hfix : simplifyFuel sys (fuel + 1) t = (t, []) := by
        simp [simplifyFuel, hro]
      rw [hfix]
      exact hro
    | some trip =>
      obtain ⟨off, i, t'⟩ := trip
      have hstep : (simplifyFuel sys (fuel + 1) t).1 =
          (simplifyFuel sys fuel t').1 := by
        simp [simplifyFuel, hro]
      rw [hstep]
      obtain ⟨r, hri, hd, hoff, hdect, hdect'⟩ := rewriteOnce_some hro
      have hrmem : r ∈ sys.rules := List.getElem?_mem hri
      have hk' : ∀ k ∈ keyList t', k < M := by
        intro k hkmem
        rw [hdect'] at hkmem
        unfold keyList at hkmem
        simp only [List.map_append, List.mem_append] at hkmem
        rcases hkmem with (hkm | hkm) | hkm
        · obtain ⟨s, hs, hks⟩ := List.mem_map.mp hkm
          have hst : s ∈ t := List.mem_of_mem_take hs
          exact hk k (by rw [← hks]; exact List.mem_map_of_mem _ hst)
        · exact hrhs r hrmem k hkm
        · obtain ⟨s, hs, hks⟩ := List.mem_map.mp hkm
          have hst : s ∈ t := List.mem_of_mem_drop hs
          exact hk k (by rw [← hks]; exact List.mem_map_of_mem _ hst)
      have hlt : TermLt t' t := by
        have h1 : TermLt r.rhs r.lhs := hw r hrmem hd
        have h2 := TermLt_context (t.take off) (t.drop (off + r.lhs.length)) h1
        rw [← hdect] at h2
        rw [← hdect'] at h2
        exact h2
      have henc : encodeM M (keyList t') < encodeM M (keyList t) :=
        encodeM_lt_of_shortlex hlt hk'
      exact ih t' hk' (by omega)

theorem simplify_rewriteOnce_none {sys : RewriteSystem} (t : List Sym)
    (hw : WellFormed sys) :
    rewriteOnce sys (sys.simplify t).1 = none := by
  unfold RewriteSystem.simplify
  exact simplifyFuel_nf (Nat.succ_pos _) hw
    (fun r hr => keys_lt_sysBound_rhs t hr)
    (fuelBound sys t) t (keys_lt_sysBound_term sys t) (le_refl _)

theorem shortlex_nil_false (x : List Nat) : shortlex x [] = false := by
  unfold shortlex
  cases x with
  | nil => simp [lexLt]
  | cons a l => simp

theorem WellFormed_lhs_ne_nil {sys : RewriteSystem} {r : Rule}
    (hw : WellFormed sys) (hr : r ∈ sys.rules) (hd : r.deleted = false) :
    r.lhs ≠ [] := by
  intro hnil
  have h1 := hw r hr hd
  unfold TermLt at h1
  rw [hnil] at h1
  have h2 : keyList ([] : List Sym) = [] := rfl
  rw [h2, shortlex_nil_false] at h1
  cases h1

theorem rewriteOnce_none_findRewrite {sys : RewriteSystem} {u : List Sym}
    (h : rewriteOnce sys u = none) : findRewrite sys.rules u = none := by
  cases hf : findRewrite sys.rules u with
  | none => rfl
  | some p =>
    obtain ⟨off, i⟩ := p
    obtain ⟨hne, hfa⟩ := findRewrite_some hf
    obtain ⟨m, r, hm, hd, hp, hi⟩ := firstRuleAux_some hfa
    have him : i = m := by omega
    unfold rewriteOnce at h
    rw [hf] at h
    have h' : (match sys.rules[i]? with
      | none => none
      | some r => some (off, i, applyRuleAt u r.lhs r.rhs off)) =
        none := h
    rw [him, hm] at h'
    simp at h'

theorem noRedex_no_subterm {sys : RewriteSystem} {u : List Sym}
    (hw : WellFormed sys) (h : rewriteOnce sys u = none) :
    ∀ r ∈ sys.rules, r.deleted = false → ¬ SubtermOf r.lhs u := by
  intro r hr hd hsub
  obtain ⟨p, s, hu⟩ := hsub
  have hf := rewriteOnce_none_findRewrite h
  have hdrop : u.drop p.length = r.lhs ++ s := by
    rw [hu, List.append_assoc]
    exact List.drop_left p (r.lhs ++ s)
  rcases findRewrite_none hf p.length with hnil | hnone
  · rw [hdrop] at hnil
    have hlne : r.lhs ≠ [] := WellFormed_lhs_ne_nil hw hr hd
    simp only [List.append_eq_nil] at hnil
    exact hlne hnil.1
  · obtain ⟨m, hm⟩ := List.getElem?_of_mem hr
    exact firstRuleAux_none hnone m r hm
      ⟨hd, by rw [hdrop]; exact isPre_iff.mpr ⟨s, rfl⟩⟩

theorem simplifyFuel_fix {sys : RewriteSystem} {t : List Sym}
    (h : rewriteOnce sys t = none) :
    ∀ fuel, simplifyFuel sys fuel t = (t, []) := by
  intro fuel
  cases fuel with
  | zero => rfl
  | succ f => simp [simplifyFuel, h]

theorem take_len_eq {t : List Sym} {off : Nat} (h : off ≤ t.length) :
    (t.take off).length = off := by
  simp [List.length_take]
  omega

theorem drop_decomp {t : List Sym} {off : Nat}
    {r : Rule} (hoff : off ≤ t.length)
    (hdect : t = t.take off ++ r.lhs ++ t.drop (off + r.lhs.length)) :
    t.drop off = r.lhs ++ t.drop (off + r.lhs.length) := by
  conv_lhs => rw [hdect]
  rw [List.append_assoc]
  rw [List.drop_left' (take_len_eq hoff)]

theorem applyStep_of_rewriteOnce {sys : RewriteSystem} {t : List Sym}
    {off i : Nat} {t' : List Sym}
    (h : rewriteOnce sys t = some (off, i, t')) :
    applyStep sys t ⟨StepKind.ApplyRewriteRule, off, i, false⟩ = some t' := by
  obtain ⟨r, hri, hd, hoff, hdect, hdect'⟩ := rewriteOnce_some h
  have hdrop : t.drop off = r.lhs ++ t.drop (off + r.lhs.length) :=
    drop_decomp hoff hdect
  unfold applyStep
  simp only [hri]
  rw [if_pos ⟨isPre_iff.mpr ⟨t.drop (off + r.lhs.length), by simpa using hdrop⟩,
    by simpa using hoff⟩]
  rw [hdect']
  simp [List.append_assoc]

theorem simplifyFuel_steps (sys : RewriteSystem) :
    ∀ (fuel : Nat) (t : List Sym),
    applyPath sys t (simplifyFuel sys fuel t).2 =
      some (simplifyFuel sys fuel t).1 ∧
    ∀ st ∈ (simplifyFuel sys fuel t).2,
      st.kind = StepKind.ApplyRewriteRule ∧ st.inverse = false ∧
      ∃ r, sys.rules[st.ruleID]? = some r ∧ r.deleted = false := by
  intro fuel
  induction fuel with
  | zero =>
    intro t
    exact ⟨rfl, by intro st hst; cases hst⟩
  | succ fuel ih =>
    intro t
    cases hro : rewriteOnce sys t with
    | none =>
      rw [simplifyFuel_fix hro]
      exact ⟨rfl, by intro st hst; cases hst⟩
    | some trip =>
      obtain ⟨off, i, t'⟩ := trip
      have hs : simplifyFuel sys (fuel + 1) t =
          ((simplifyFuel sys fuel t').1,
            (⟨StepKind.ApplyRewriteRule, off, i, false⟩ : RewriteStep) ::
              (simplifyFuel sys fuel t').2) := by
        simp [simplifyFuel, hro]
      have happ := applyStep_of_rewriteOnce hro
      obtain ⟨r, hri, hd, _, _, _⟩ := rewriteOnce_some hro
      rw [hs]
      constructor
      · simp only [applyPath, happ]
        exact (ih t').1
      · intro st hst
        rcases List.mem_cons.mp hst with rfl | hmem
        · exact ⟨rfl, rfl, r, hri, hd⟩
        · exact (ih t').2 st hmem

theorem applyPath_reaches {sys : RewriteSystem} :
    ∀ (steps : List RewriteStep) (t u : List Sym),
    applyPath sys t steps = some u →
    (∀ st ∈ steps, st.kind = StepKind.ApplyRewriteRule ∧ st.inverse = false) →
    Reaches sys t u := by
  intro steps
  induction steps with
  | nil =>
    intro t u h _
    have : t = u := Option.some.inj h
    rw [this]
    exact Relation.ReflTransGen.refl
  | cons st rest ih =>
    intro t u h hall
    unfold applyPath at h
    cases happ : applyStep sys t st with
    | none => rw [happ] at h; cases h
    | some t1 =>
      rw [happ] at h
      have h1 : OneStep sys t t1 :=
        ⟨st, (hall st (List.mem_cons_self st rest)).1,
          (hall st (List.mem_cons_self st rest)).2, happ⟩
      exact Relation.ReflTransGen.head h1
        (ih t1 u h fun st' hm => hall st' (List.mem_cons_of_mem st hm))

theorem replace_roundtrip {t t' : List Sym} {off : Nat} {src tgt : List Sym}
    (hp : isPre src (t.drop off) = true) (hoff : off ≤ t.length)
    (ht' : t' = t.take off ++ tgt ++ t.drop (off + src.length)) :
    isPre tgt (t'.drop off) = true ∧ off ≤ t'.length ∧
    t'.take off ++ src ++ t'.drop (off + tgt.length) = t := by
  obtain ⟨q, hq⟩ := isPre_iff.mp hp
  have hqd : q = t.drop (off + src.length) := by
    have hq1 : (t.drop off).drop src.length = q := by
      rw [hq]
      exact List.drop_left src q
    rw [← hq1, List.drop_drop]
  have hlen : (t.take off).length = off := take_len_eq hoff
  have ht'2 : t' = t.take off ++ (tgt ++ q) := by
    rw [ht', ← hqd, List.append_assoc]
  have hdrop' : t'.drop off = tgt ++ q := by
    rw [ht'2]
    exact List.drop_left' hlen
  have htake' : t'.take off = t.take off := by
    rw [ht'2]
    exact List.take_left' hlen
  refine ⟨isPre_iff.mpr ⟨q, hdrop'⟩, ?_, ?_⟩
  · rw [ht'2, List.length_append, hlen]
    omega
  · have hlen2 : (t.take off ++ tgt).length = off + tgt.length := by
      rw [List.length_append, hlen]
    have hdrop2 : t'.drop (off + tgt.length) = q := by
      rw [ht', ← hqd, List.append_assoc, ← List.append_assoc]
      exact List.drop_left' hlen2
    rw [htake', hdrop2]
    conv_rhs => rw [← List.take_append_drop off t, hq]
    rw [List.append_assoc]

theorem atomIds_mem_atom {l : List Sym} {ids : List Nat}
    (h : atomIds l = some ids) : ∀ x ∈ l, ∃ n, x = Sym.atom n := by
  induction l generalizing ids with
  | nil => intro x hx; cases hx
  | cons a rest ih =>
    intro x hx
    cases a with
    | atom n =>
      simp only [atomIds, Option.map_eq_some'] at h
      obtain ⟨ids', hids', _⟩ := h
      rcases List.mem_cons.mp hx with rfl | hmem
      · exact ⟨n, rfl⟩
      · exact ih hids' x hmem
    | concrete c subs => simp [atomIds] at h

theorem getLast_decomp {α : Type} {l : List α} {x : α}
    (h : l.getLast? = some x) : l = l.dropLast ++ [x] := by
  induction l with
  | nil => cases h
  | cons a rest ih =>
    cases rest with
    | nil =>
      simp only [List.getLast?_singleton, Option.some.injEq] at h
      rw [h]
      rfl
    | cons b rest' =>
      have h' : (b :: rest').getLast? = some x := by
        rw [← h]
        rfl
      have := ih h'
      calc a :: b :: rest' = a :: ((b :: rest').dropLast ++ [x]) := by
            rw [← this]
        _ = (a :: b :: rest').dropLast ++ [x] := by
            simp [List.dropLast]

theorem take_concat_eq {α : Type} {l : List α} {y : α} {off : Nat}
    (hoff : off ≤ l.length) : (l ++ [y]).take off = l.take off :=
  List.take_append_of_le_length hoff

theorem off_le_dropLast {t : List Sym} {c : Nat} {subs : List (List Nat)}
    {off : Nat} {pre : List Nat}
    (hlast : t.getLast? = some (Sym.concrete c subs))
    (hids : atomIds (t.take off) = some pre) :
    off ≤ t.dropLast.length := by
  by_contra hc
  have hd := getLast_decomp hlast
  have hlen : t.length = t.dropLast.length + 1 := by
    conv_lhs => rw [hd]
    simp
  have hoff : t.length ≤ off := by omega
  have htake : t.take off = t := List.take_of_length_le hoff
  have hmem : Sym.concrete c subs ∈ t := by
    rw [hd]
    exact List.mem_append_right _ (List.mem_singleton.mpr rfl)
  obtain ⟨n, hn⟩ := atomIds_mem_atom (by rw [htake] at hids; exact hids)
    (Sym.concrete c subs) hmem
  cases hn

theorem applyStep_invert {sys : RewriteSystem} {t t' : List Sym}
    {st : RewriteStep} (h : applyStep sys t st = some t') :
    applyStep sys t' st.invert = some t := by
  obtain ⟨k, off, rid, binv⟩ := st
  cases k with
  | ApplyRewriteRule =>
    unfold applyStep at h
    unfold RewriteStep.invert applyStep
    cases hr : sys.rules[rid]? with
    | none => simp [hr] at h
    | some r =>
      simp only [hr] at h ⊢
      cases binv with
      | false =>
        simp only [Bool.not_false, if_neg, if_pos, Bool.false_eq_true,
          if_false, if_true] at h ⊢
        split at h
        · next hc =>
          have rt := replace_roundtrip hc.1 hc.2 (Option.some.inj h).symm
          rw [if_pos ⟨rt.1, rt.2.1⟩, rt.2.2]
        · cases h
      | true =>
        simp only [Bool.not_true, Bool.false_eq_true, if_false, if_true] at h ⊢
        split at h
        · next hc =>
          have rt := replace_roundtrip hc.1 hc.2 (Option.some.inj h).symm
          rw [if_pos ⟨rt.1, rt.2.1⟩, rt.2.2]
        · cases h
  | AdjustConcreteType =>
    unfold applyStep at h
    unfold RewriteStep.invert applyStep
    cases hlast : t.getLast? with
    | none => simp [hlast] at h
    | some x =>
      cases x with
      | atom n => simp [hlast] at h
      | concrete c subs =>
        simp only [hlast] at h
        cases hids : atomIds (t.take off) with
        | none => simp [hids] at h
        | some pre =>
          simp only [hids] at h
          have hoffd : off ≤ t.dropLast.length := off_le_dropLast hlast hids
          have hd := getLast_decomp hlast
          have htt : t.take off = t.dropLast.take off := by
            conv_lhs => rw [hd]
            exact take_concat_eq hoffd
          cases binv with
          | false =>
            simp only [Bool.not_false, Bool.false_eq_true, if_false] at h
            have ht' : t' =
                t.dropLast ++ [Sym.concrete c (subs.map fun s => pre ++ s)] :=
              (Option.some.inj h).symm
            have hl' : t'.getLast? =
                some (Sym.concrete c (subs.map fun s => pre ++ s)) := by
              rw [ht']
              exact List.getLast?_concat _
            have ht'take : t'.take off = t.take off := by
              rw [ht', take_concat_eq hoffd, htt]
            simp only [Bool.not_false, if_true, hl', ht'take, hids]
            have hall : (subs.map fun s => pre ++ s).all
                (fun s => isPre pre s) = true := by
              rw [List.all_eq_true]
              intro s' hs'
              obtain ⟨s, _, rfl⟩ := List.mem_map.mp hs'
              exact isPre_iff.mpr ⟨s, rfl⟩
            rw [if_pos hall]
            have hdl : t'.dropLast = t.dropLast := by
              rw [ht']
              exact List.dropLast_concat ..
            have hmaps : (subs.map fun s => pre ++ s).map
                (fun s => s.drop pre.length) = subs := by
              rw [List.map_map]
              have hcg : ∀ s ∈ subs,
                  ((fun s => s.drop pre.length) ∘ fun s => pre ++ s) s = s := by
                intro s _
                simp [List.drop_left]
              rw [List.map_congr_left hcg]
              simp
            rw [hdl, hmaps, ← hd]
          | true =>
            simp only [Bool.not_true, if_true] at h
            split at h
            · next hall =>
              have ht' : t' = t.dropLast ++
                  [Sym.concrete c (subs.map fun s => s.drop pre.length)] :=
                (Option.some.inj h).symm
              have hl' : t'.getLast? =
                  some (Sym.concrete c (subs.map fun s => s.drop pre.length)) := by
                rw [ht']
                exact List.getLast?_concat _
              have ht'take : t'.take off = t.take off := by
                rw [ht', take_concat_eq hoffd, htt]
              simp only [Bool.not_true, Bool.false_eq_true, if_false, hl',
                ht'take, hids]
              have hdl : t'.dropLast = t.dropLast := by
                rw [ht']
                exact List.dropLast_concat ..
              have hmaps : (subs.map fun s => s.drop pre.length).map
                  (fun s => pre ++ s) = subs := by
                rw [List.map_map]
                have hcg : ∀ s ∈ subs,
                    ((fun s => pre ++ s) ∘ fun s => s.drop pre.length) s = s := by
                  intro s hs
                  have hps := (List.all_eq_true.mp hall) s hs
                  obtain ⟨q, hq⟩ := isPre_iff.mp hps
                  simp only [Function.comp_apply, hq, List.drop_left]
                rw [List.map_congr_left hcg]
                simp
              rw [hdl, hmaps, ← hd]
            · cases h

theorem applyPath_append_some {sys : RewriteSystem} :
    ∀ {steps1 : List RewriteStep} {t u : List Sym}
    (steps2 : List RewriteStep),
    applyPath sys t steps1 = some u →
    applyPath sys t (steps1 ++ steps2) = applyPath sys u steps2 := by
  intro steps1
  induction steps1 with
  | nil =>
    intro t u steps2 h
    have : t = u := Option.some.inj h
    rw [this]
    rfl
  | cons st rest ih =>
    intro t u steps2 h
    unfold applyPath at h
    cases happ : applyStep sys t st with
    | none => rw [happ] at h; cases h
    | some t1 =>
      rw [happ] at h
      show applyPath sys t (st :: (rest ++ steps2)) = applyPath sys u steps2
      calc applyPath sys t (st :: (rest ++ steps2))
          = applyPath sys t1 (rest ++ steps2) := by
            show (match applyStep sys t st with
              | none => none
              | some t' => applyPath sys t' (rest ++ steps2)) =
              applyPath sys t1 (rest ++ steps2)
            rw [happ]
        _ = applyPath sys u steps2 := ih steps2 h

theorem applyPath_invert {sys : RewriteSystem} :
    ∀ (steps : List RewriteStep) (t u : List Sym),
    applyPath sys t steps = some u →
    applyPath sys u ((steps.map RewriteStep.invert).reverse) = some t := by
  intro steps
  induction steps with
  | nil =>
    intro t u h
    have : t = u := Option.some.inj h
    rw [this]
    rfl
  | cons st rest ih =>
    intro t u h
    unfold applyPath at h
    cases happ : applyStep sys t st with
    | none => rw [happ] at h; cases h
    | some t1 =>
      rw [happ] at h
      have hrev : ((st :: rest).map RewriteStep.invert).reverse =
          (rest.map RewriteStep.invert).reverse ++ [st.invert] := by
        simp
      rw [hrev, applyPath_append_some [st.invert] (ih t1 u h)]
      simp only [applyPath, applyStep_invert happ]

/-- Case analysis of `addRule`: equal sides are a no-op; otherwise the
pair is oriented (the shortlex-larger side becomes the LHS of the
appended rule) and the trie gains the new LHS. -/
theorem addRule_eq (sys : RewriteSystem) (lhs rhs : List Sym) :
    (lhs = rhs ∧ sys.addRule lhs rhs = (sys, false)) ∨
    (lhs ≠ rhs ∧ ∃ l r, (l = lhs ∧ r = rhs ∨ l = rhs ∧ r = lhs) ∧
      TermLt r l ∧
      sys.addRule lhs rhs =
        (⟨sys.rules ++ [Rule.make l r],
          sys.trie ++ [(l, sys.rules.length)], sys.checked⟩, true)) := by
  by_cases heq : lhs = rhs
  · left
    exact ⟨heq, by unfold RewriteSystem.addRule; rw [if_pos heq]⟩
  · right
    refine ⟨heq, ?_⟩
    by_cases hlt : TermLt lhs rhs
    · refine ⟨rhs, lhs, Or.inr ⟨rfl, rfl⟩, hlt, ?_⟩
      unfold RewriteSystem.addRule
      rw [if_neg heq]
      simp [hlt]
    · have hgt : TermLt rhs lhs := by
        rcases TermLt_total heq with h | h
        · exact absurd h hlt
        · exact h
      refine ⟨lhs, rhs, Or.inl ⟨rfl, rfl⟩, hgt, ?_⟩
      unfold RewriteSystem.addRule
      rw [if_neg heq]
      simp [hlt]

theorem addRule_false {sys sys2 : RewriteSystem} {lhs rhs : List Sym}
    (h : sys.addRule lhs rhs = (sys2, false)) : sys2 = sys := by
  rcases addRule_eq sys lhs rhs with ⟨_, he⟩ | ⟨_, l, r, _, _, he⟩
  · rw [he] at h
    exact (congrArg Prod.fst h).symm
  · rw [he] at h
    have hsnd := congrArg Prod.snd h
    simp at hsnd

theorem resolvePairs_acc (maxDepth : Nat) :
    ∀ (pairs : List (List Sym × List Sym)) (sys : RewriteSystem),
    (resolvePairs maxDepth sys pairs true).2.1 = true := by
  intro pairs
  induction pairs with
  | nil => intro sys; rfl
  | cons p rest ih =>
    intro sys
    obtain ⟨a, b⟩ := p
    simp only [resolvePairs]
    by_cases heq : (sys.simplify a).1 = (sys.simplify b).1
    · rw [if_pos heq]
      exact ih sys
    · rw [if_neg heq]
      by_cases hdep : maxDepth <
          (if TermLt (sys.simplify a).1 (sys.simplify b).1
            then (sys.simplify b).1 else (sys.simplify a).1).length
      · rw [if_pos hdep]
      · rw [if_neg hdep]
        simp only [Bool.true_or]
        exact ih _

theorem resolvePairs_no_add {maxDepth : Nat} :
    ∀ (pairs : List (List Sym × List Sym)) (sys sys2 : RewriteSystem)
    (bad : Bool),
    resolvePairs maxDepth sys pairs false = (sys2, false, bad) →
    sys2 = sys := by
  intro pairs
  induction pairs with
  | nil =>
    intro sys sys2 bad h
    exact (congrArg Prod.fst h).symm
  | cons p rest ih =>
    intro sys sys2 bad h
    obtain ⟨a, b⟩ := p
    simp only [resolvePairs] at h
    by_cases heq : (sys.simplify a).1 = (sys.simplify b).1
    · rw [if_pos heq] at h
      exact ih sys sys2 bad h
    · rw [if_neg heq] at h
      by_cases hdep : maxDepth <
          (if TermLt (sys.simplify a).1 (sys.simplify b).1
            then (sys.simplify b).1 else (sys.simplify a).1).length
      · rw [if_pos hdep] at h
        exact (congrArg Prod.fst h).symm
      · rw [if_neg hdep] at h
        cases hres : sys.addRule (sys.simplify a).1 (sys.simplify b).1 with
        | mk s1 added1 =>
          rw [hres] at h
          cases added1 with
          | true =>
            simp only [Bool.false_or] at h
            have hacc := resolvePairs_acc maxDepth rest s1
            rw [h] at hacc
            cases hacc
          | false =>
            simp only [Bool.false_or] at h
            have hs1 : s1 = sys := addRule_false hres
            rw [← hs1]
            exact ih s1 sys2 bad h

theorem completionStep_fix {sys sys' : RewriteSystem} {maxDepth : Nat}
    (h : completionStep sys maxDepth = (sys', false, false)) :
    (completionStep sys' maxDepth).2.1 = false := by
  have hsys' : sys' = { sys with checked := sys.checked ++
      ((allPairs sys.rules.length).filter fun p =>
        decide (¬ p ∈ sys.checked)) } := by
    unfold completionStep at h
    exact resolvePairs_no_add _ _ _ _ h
  have hrules : sys'.rules = sys.rules := by rw [hsys']
  have hchecked : sys'.checked = sys.checked ++
      ((allPairs sys.rules.length).filter fun p =>
        decide (¬ p ∈ sys.checked)) := by rw [hsys']
  have htodo : ((allPairs sys'.rules.length).filter fun p =>
      decide (¬ p ∈ sys'.checked)) = [] := by
    rw [List.filter_eq_nil_iff]
    intro p hp
    rw [hrules] at hp
    have hmem : p ∈ sys'.checked := by
      rw [hchecked]
      by_cases hc : p ∈ sys.checked
      · exact List.mem_append_left _ hc
      · refine List.mem_append_right _ ?_
        rw [List.mem_filter]
        exact ⟨hp, by simpa using hc⟩
    simp [hmem]
  unfold completionStep
  rw [htodo]
  rfl

theorem completeAux_spec (maxDepth : Nat) :
    ∀ (fuel : Nat) (sys : RewriteSystem) (used : Nat),
    (completeAux maxDepth fuel sys used).2.2 ≤ used + fuel ∧
    ((completeAux maxDepth fuel sys used).2.1 =
        CompletionResult.MaxIterations →
      (completeAux maxDepth fuel sys used).2.2 = used + fuel) ∧
    ((completeAux maxDepth fuel sys used).2.1 = CompletionResult.Success →
      (completionStep (completeAux maxDepth fuel sys used).1
        maxDepth).2.1 = false) := by
  intro fuel
  induction fuel with
  | zero =>
    intro sys used
    refine ⟨by simp [completeAux], by simp [completeAux], ?_⟩
    intro h
    simp [completeAux] at h
  | succ fuel ih =>
    intro sys used
    cases hcs : completionStep sys maxDepth with
    | mk s1 rest1 =>
      obtain ⟨added1, bad1⟩ := rest1
      cases bad1 with
      | true =>
        have hred : completeAux maxDepth (fuel + 1) sys used =
            (s1, CompletionResult.MaxDepth, used + 1) := by
          simp [completeAux, hcs]
        rw [hred]
        refine ⟨by show used + 1 ≤ used + (fuel + 1); omega, ?_, ?_⟩
        · intro h; simp at h
        · intro h; simp at h
      | false =>
        cases added1 with
        | false =>
          have hred : completeAux maxDepth (fuel + 1) sys used =
              (s1, CompletionResult.Success, used + 1) := by
            simp [completeAux, hcs]
          rw [hred]
          refine ⟨by show used + 1 ≤ used + (fuel + 1); omega, ?_, ?_⟩
          · intro h; simp at h
          · intro _; exact completionStep_fix hcs
        | true =>
          have hred : completeAux maxDepth (fuel + 1) sys used =
              completeAux maxDepth fuel s1 (used + 1) := by
            simp [completeAux, hcs]
          rw [hred]
          obtain ⟨hb, hm, hs⟩ := ih s1 (used + 1)
          refine ⟨by omega, ?_, hs⟩
          intro h
          have := hm h
          omega

/-- A small well-formed sample system: one rule `[1] ⇒ [0]`, its LHS in
the trie, nothing checked yet. -/
def sampleSys : RewriteSystem :=
  ⟨[Rule.make [Sym.atom 1] [Sym.atom 0]], [([Sym.atom 1], 0)], []⟩

/-- C1, counterexample: the `Rule` constructor performs no order check —
`Rule([a], [a])` is accepted with both sides stored verbatim even though
its LHS does not exceed its RHS under the term order, rather than
failing construction. -/
theorem rule_constructor_accepts_unoriented :
    Rule.make [Sym.atom 0] [Sym.atom 0] =
      { lhs := [Sym.atom 0], rhs := [Sym.atom 0], deleted := false } ∧
    ¬ TermLt (Rule.make [Sym.atom 0] [Sym.atom 0]).rhs
      (Rule.make [Sym.atom 0] [Sym.atom 0]).lhs := by
  constructor
  · rfl
  · decide

/-- C1, amended: the `Rule` constructor itself stores LHS and RHS
unchecked (the LHS > RHS requirement is a documented precondition of the
class, not a constructor check); the invariant holds where rules enter
the system: after `addRule`, every rule in the table either was already
there or is oriented with RHS strictly below LHS in the term order, and
equal sides are rejected as a no-op rather than accepted. -/
theorem addRule_establishes_orientation (sys : RewriteSystem)
    (lhs rhs : List Sym) :
    ∀ r ∈ (sys.addRule lhs rhs).1.rules,
      r ∈ sys.rules ∨ TermLt r.rhs r.lhs := by
  intro r hr
  rcases addRule_eq sys lhs rhs with ⟨_, he⟩ | ⟨_, l, rr, _, hlt, he⟩
  · rw [he] at hr
    exact Or.inl hr
  · rw [he] at hr
    rcases List.mem_append.mp hr with hm | hm
    · exact Or.inl hm
    · rw [List.mem_singleton] at hm
      exact Or.inr (by rw [hm]; exact hlt)

theorem addRule_establishes_orientation_witness :
    (Rule.make [Sym.atom 1] [Sym.atom 0] ∈
      ((⟨[], [], []⟩ : RewriteSystem).addRule
        [Sym.atom 0] [Sym.atom 1]).1.rules) ∧
    (Rule.make [Sym.atom 1] [Sym.atom 0] ∈
        (⟨[], [], []⟩ : RewriteSystem).rules ∨
      TermLt (Rule.make [Sym.atom 1] [Sym.atom 0]).rhs
        (Rule.make [Sym.atom 1] [Sym.atom 0]).lhs) :=
  ⟨by decide, addRule_establishes_orientation ⟨[], [], []⟩
    [Sym.atom 0] [Sym.atom 1] (Rule.make [Sym.atom 1] [Sym.atom 0])
    (by decide)⟩

/-- C7: `addRule` orients its argument pair under the term order (the
larger term becomes the LHS of the appended rule); equal sides are a
no-progress no-op leaving the system unchanged; otherwise it appends the
new rule and inserts the rule's LHS into the trie; and the boolean
return value states exactly whether a new rule was added. -/
theorem addRule_spec (sys : RewriteSystem) (lhs rhs : List Sym) :
    (lhs = rhs → sys.addRule lhs rhs = (sys, false)) ∧
    (lhs ≠ rhs → ∃ l r : List Sym,
      (l = lhs ∧ r = rhs ∨ l = rhs ∧ r = lhs) ∧ TermLt r l ∧
      (sys.addRule lhs rhs).1.rules = sys.rules ++ [Rule.make l r] ∧
      (sys.addRule lhs rhs).1.trie =
        sys.trie ++ [(l, sys.rules.length)] ∧
      (sys.addRule lhs rhs).2 = true) ∧
    ((sys.addRule lhs rhs).2 = true ↔ lhs ≠ rhs) := by
  rcases addRule_eq sys lhs rhs with ⟨heq, he⟩ | ⟨hne, l, r, hor, hlt, he⟩
  · refine ⟨fun _ => he, fun hne => absurd heq hne, ?_⟩
    rw [he]
    simp [heq]
  · refine ⟨fun heq => absurd heq hne, fun _ =>
      ⟨l, r, hor, hlt, ?_, ?_, ?_⟩, ?_⟩
    · rw [he]
    · rw [he]
    · rw [he]
    · rw [he]
      simp [hne]

theorem addRule_spec_witness :
    (([Sym.atom 0] : List Sym) = [Sym.atom 1] →
      (⟨[], [], []⟩ : RewriteSystem).addRule [Sym.atom 0] [Sym.atom 1] =
        (⟨[], [], []⟩, false)) ∧
    (([Sym.atom 0] : List Sym) ≠ [Sym.atom 1] → ∃ l r : List Sym,
      (l = [Sym.atom 0] ∧ r = [Sym.atom 1] ∨
        l = [Sym.atom 1] ∧ r = [Sym.atom 0]) ∧ TermLt r l ∧
      ((⟨[], [], []⟩ : RewriteSystem).addRule
        [Sym.atom 0] [Sym.atom 1]).1.rules =
        (⟨[], [], []⟩ : RewriteSystem).rules ++ [Rule.make l r] ∧
      ((⟨[], [], []⟩ : RewriteSystem).addRule
        [Sym.atom 0] [Sym.atom 1]).1.trie =
        (⟨[], [], []⟩ : RewriteSystem).trie ++
          [(l, (⟨[], [], []⟩ : RewriteSystem).rules.length)] ∧
      ((⟨[], [], []⟩ : RewriteSystem).addRule
        [Sym.atom 0] [Sym.atom 1]).2 = true) ∧
    (((⟨[], [], []⟩ : RewriteSystem).addRule
        [Sym.atom 0] [Sym.atom 1]).2 = true ↔
      ([Sym.atom 0] : List Sym) ≠ [Sym.atom 1]) :=
  addRule_spec ⟨[], [], []⟩ [Sym.atom 0] [Sym.atom 1]

/-- C8: `markDeleted` fails fast (the assertion fires) when the rule is
already deleted, and otherwise moves the rule to the deleted state, so
`isDeleted` reports true afterwards. -/
theorem markDeleted_checked (r : Rule) :
    (r.isDeleted = true → r.markDeleted = none) ∧
    (r.isDeleted = false →
      ∃ r', r.markDeleted = some r' ∧ r'.isDeleted = true) := by
  constructor
  · intro h
    simp [Rule.markDeleted, show r.deleted = true from h]
  · intro h
    refine ⟨{ r with deleted := true }, ?_, rfl⟩
    simp [Rule.markDeleted, show r.deleted = false from h]

theorem markDeleted_checked_witness :
    ((Rule.make [Sym.atom 1] [Sym.atom 0]).isDeleted = true →
      (Rule.make [Sym.atom 1] [Sym.atom 0]).markDeleted = none) ∧
    ((Rule.make [Sym.atom 1] [Sym.atom 0]).isDeleted = false →
      ∃ r', (Rule.make [Sym.atom 1] [Sym.atom 0]).markDeleted = some r' ∧
        r'.isDeleted = true) :=
  markDeleted_checked (Rule.make [Sym.atom 1] [Sym.atom 0])

/-- C9: the `RewriteStep` constructor checks its 15-bit `Offset` and
`RuleID` bitfields: every in-range offset and rule id is stored exactly,
and an out-of-range value makes construction fail (the overflow assert)
instead of silently truncating. -/
theorem rewriteStep_make_checked (k : StepKind) (offset ruleID : Nat)
    (inverse : Bool) :
    (offset < 2 ^ 15 ∧ ruleID < 2 ^ 15 →
      RewriteStep.make k offset ruleID inverse =
        some ⟨k, offset, ruleID, inverse⟩) ∧
    (2 ^ 15 ≤ offset ∨ 2 ^ 15 ≤ ruleID →
      RewriteStep.make k offset ruleID inverse = none) := by
  constructor
  · rintro ⟨h1, h2⟩
    unfold RewriteStep.make
    rw [if_pos ⟨Nat.mod_eq_of_lt h1, Nat.mod_eq_of_lt h2⟩]
  · intro h
    unfold RewriteStep.make
    rw [if_neg]
    rintro ⟨hc1, hc2⟩
    have ho : offset % 2 ^ 15 < 2 ^ 15 := Nat.mod_lt _ (by norm_num)
    have hr : ruleID % 2 ^ 15 < 2 ^ 15 := Nat.mod_lt _ (by norm_num)
    omega

theorem rewriteStep_make_checked_witness :
    RewriteStep.make StepKind.ApplyRewriteRule 5 3 false =
      some ⟨StepKind.ApplyRewriteRule, 5, 3, false⟩ ∧
    RewriteStep.make StepKind.ApplyRewriteRule 40000 0 false = none :=
  ⟨(rewriteStep_make_checked StepKind.ApplyRewriteRule 5 3 false).1
      (by decide),
    (rewriteStep_make_checked StepKind.ApplyRewriteRule 40000 0 false).2
      (Or.inl (by decide))⟩

/-- C10: every step `forAdjustment` constructs has kind
`AdjustConcreteType` and rule id 0 — an adjustment step never references
a rewrite rule. -/
theorem forAdjustment_kind_ruleID (offset : Nat) (inverse : Bool)
    (st : RewriteStep)
    (h : RewriteStep.forAdjustment offset inverse = some st) :
    st.kind = StepKind.AdjustConcreteType ∧ st.ruleID = 0 := by
  unfold RewriteStep.forAdjustment RewriteStep.make at h
  by_cases hc : offset % 2 ^ 15 = offset ∧ 0 % 2 ^ 15 = 0
  · rw [if_pos hc] at h
    have hst := Option.some.inj h
    rw [← hst]
    exact ⟨rfl, rfl⟩
  · rw [if_neg hc] at h
    cases h

theorem forAdjustment_kind_ruleID_witness :
    (⟨StepKind.AdjustConcreteType, 2, 0, false⟩ : RewriteStep).kind =
      StepKind.AdjustConcreteType ∧
    (⟨StepKind.AdjustConcreteType, 2, 0, false⟩ : RewriteStep).ruleID = 0 :=
  forAdjustment_kind_ruleID 2 false
    ⟨StepKind.AdjustConcreteType, 2, 0, false⟩ (by decide)

/-- C2: completion terminates for every system and every pair of bounds
(it is a total function), returning one of the three results `Success`,
`MaxIterations`, `MaxDepth` together with the number of iterations used;
the count never exceeds `maxIterations`; a `MaxIterations` result means
exactly `maxIterations` rounds ran — the bounded outcome for inputs
whose critical pairs keep regenerating; and a `Success` result means the
final system is stable: one more round adds no rule. -/
theorem computeConfluentCompletion_bounded (sys : RewriteSystem)
    (maxIterations maxDepth : Nat) :
    ((sys.computeConfluentCompletion maxIterations maxDepth).2.1 =
        CompletionResult.Success ∨
      (sys.computeConfluentCompletion maxIterations maxDepth).2.1 =
        CompletionResult.MaxIterations ∨
      (sys.computeConfluentCompletion maxIterations maxDepth).2.1 =
        CompletionResult.MaxDepth) ∧
    (sys.computeConfluentCompletion maxIterations maxDepth).2.2 ≤
      maxIterations ∧
    ((sys.computeConfluentCompletion maxIterations maxDepth).2.1 =
        CompletionResult.MaxIterations →
      (sys.computeConfluentCompletion maxIterations maxDepth).2.2 =
        maxIterations) ∧
    ((sys.computeConfluentCompletion maxIterations maxDepth).2.1 =
        CompletionResult.Success →
      (completionStep
        (sys.computeConfluentCompletion maxIterations maxDepth).1
        maxDepth).2.1 = false) := by
  unfold RewriteSystem.computeConfluentCompletion
  obtain ⟨hb, hm, hs⟩ := completeAux_spec maxDepth maxIterations sys 0
  refine ⟨?_, by simpa using hb, fun h => by simpa using hm h, hs⟩
  cases (completeAux maxDepth maxIterations sys 0).2.1 with
  | Success => exact Or.inl rfl
  | MaxIterations => exact Or.inr (Or.inl rfl)
  | MaxDepth => exact Or.inr (Or.inr rfl)

theorem computeConfluentCompletion_bounded_witness :
    (((⟨[], [], []⟩ : RewriteSystem).computeConfluentCompletion 1 0).2.1 =
        CompletionResult.Success ∨
      ((⟨[], [], []⟩ : RewriteSystem).computeConfluentCompletion 1 0).2.1 =
        CompletionResult.MaxIterations ∨
      ((⟨[], [], []⟩ : RewriteSystem).computeConfluentCompletion 1 0).2.1 =
        CompletionResult.MaxDepth) ∧
    ((⟨[], [], []⟩ : RewriteSystem).computeConfluentCompletion 1 0).2.2 ≤
      1 ∧
    (((⟨[], [], []⟩ : RewriteSystem).computeConfluentCompletion 1 0).2.1 =
        CompletionResult.MaxIterations →
      ((⟨[], [], []⟩ : RewriteSystem).computeConfluentCompletion
        1 0).2.2 = 1) ∧
    (((⟨[], [], []⟩ : RewriteSystem).computeConfluentCompletion 1 0).2.1 =
        CompletionResult.Success →
      (completionStep
        ((⟨[], [], []⟩ : RewriteSystem).computeConfluentCompletion
          1 0).1 0).2.1 = false) :=
  computeConfluentCompletion_bounded ⟨[], [], []⟩ 1 0

/-- C3: for a system whose non-deleted rules are all oriented,
`simplify` terminates (it is a total function) and returns a normal
form: no non-deleted rule's LHS occurs as a subterm of the result; the
result is reachable from the input by zero or more forward rule
applications; and the steps appended to the path replay the input term
to the result, each one a forward rule application. -/
theorem simplify_normal_form_spec (sys : RewriteSystem) (t : List Sym)
    (hw : WellFormed sys) :
    (∀ r ∈ sys.rules, r.deleted = false →
      ¬ SubtermOf r.lhs (sys.simplify t).1) ∧
    Reaches sys t (sys.simplify t).1 ∧
    applyPath sys t (sys.simplify t).2 = some (sys.simplify t).1 ∧
    ∀ st ∈ (sys.simplify t).2,
      st.kind = StepKind.ApplyRewriteRule ∧ st.inverse = false := by
  have hnf := simplify_rewriteOnce_none t hw
  have hsteps := simplifyFuel_steps sys (fuelBound sys t) t
  refine ⟨noRedex_no_subterm hw hnf, ?_, hsteps.1,
    fun st hst => ⟨(hsteps.2 st hst).1, (hsteps.2 st hst).2.1⟩⟩
  exact applyPath_reaches _ t _ hsteps.1
    (fun st hst => ⟨(hsteps.2 st hst).1, (hsteps.2 st hst).2.1⟩)

theorem simplify_normal_form_spec_witness :
    WellFormed sampleSys ∧
    ((∀ r ∈ sampleSys.rules, r.deleted = false →
      ¬ SubtermOf r.lhs (sampleSys.simplify [Sym.atom 1]).1) ∧
    Reaches sampleSys [Sym.atom 1] (sampleSys.simplify [Sym.atom 1]).1 ∧
    applyPath sampleSys [Sym.atom 1] (sampleSys.simplify [Sym.atom 1]).2 =
      some (sampleSys.simplify [Sym.atom 1]).1 ∧
    ∀ st ∈ (sampleSys.simplify [Sym.atom 1]).2,
      st.kind = StepKind.ApplyRewriteRule ∧ st.inverse = false) :=
  ⟨by decide, simplify_normal_form_spec sampleSys [Sym.atom 1] (by decide)⟩

/-- C4: `simplify` is idempotent — simplifying an already-simplified
term returns it unchanged, for every system whose non-deleted rules are
oriented. -/
theorem simplify_idempotent (sys : RewriteSystem) (t : List Sym)
    (hw : WellFormed sys) :
    (sys.simplify (sys.simplify t).1).1 = (sys.simplify t).1 := by
  have hnf := simplify_rewriteOnce_none t hw
  show (simplifyFuel sys (fuelBound sys (sys.simplify t).1)
    (sys.simplify t).1).1 = (sys.simplify t).1
  rw [simplifyFuel_fix hnf]

theorem simplify_idempotent_witness :
    WellFormed sampleSys ∧
    (sampleSys.simplify (sampleSys.simplify [Sym.atom 1]).1).1 =
      (sampleSys.simplify [Sym.atom 1]).1 :=
  ⟨by decide, simplify_idempotent sampleSys [Sym.atom 1] (by decide)⟩

/-- C5: for every rewrite path that applies from a source term and
yields a target term, `invert` reverses the step order and flips each
step's direction; applying the inverted path to the target yields the
source; and the horizontal composition of the path with its inverse
reduces to the identity on the source term. -/
theorem rewritePath_invert_roundtrip (sys : RewriteSystem)
    (p : RewritePath) (t u : List Sym)
    (h : applyPath sys t p.steps = some u) :
    p.invert.steps = (p.steps.map RewriteStep.invert).reverse ∧
    applyPath sys u p.invert.steps = some t ∧
    applyPath sys t (p.append p.invert).steps = some t := by
  refine ⟨rfl, applyPath_invert p.steps t u h, ?_⟩
  show applyPath sys t (p.steps ++ p.invert.steps) = some t
  rw [applyPath_append_some p.invert.steps h]
  exact applyPath_invert p.steps t u h

theorem rewritePath_invert_roundtrip_witness :
    applyPath sampleSys [Sym.atom 1, Sym.concrete 5 [[7]]]
      (RewritePath.mk [⟨StepKind.ApplyRewriteRule, 0, 0, false⟩,
        ⟨StepKind.AdjustConcreteType, 1, 0, false⟩]).steps =
      some [Sym.atom 0, Sym.concrete 5 [[0, 7]]] ∧
    ((RewritePath.mk [⟨StepKind.ApplyRewriteRule, 0, 0, false⟩,
        ⟨StepKind.AdjustConcreteType, 1, 0, false⟩]).invert.steps =
      ((RewritePath.mk [⟨StepKind.ApplyRewriteRule, 0, 0, false⟩,
        ⟨StepKind.AdjustConcreteType, 1, 0, false⟩]).steps.map
          RewriteStep.invert).reverse ∧
    applyPath sampleSys [Sym.atom 0, Sym.concrete 5 [[0, 7]]]
      (RewritePath.mk [⟨StepKind.ApplyRewriteRule, 0, 0, false⟩,
        ⟨StepKind.AdjustConcreteType, 1, 0, false⟩]).invert.steps =
      some [Sym.atom 1, Sym.concrete 5 [[7]]] ∧
    applyPath sampleSys [Sym.atom 1, Sym.concrete 5 [[7]]]
      ((RewritePath.mk [⟨StepKind.ApplyRewriteRule, 0, 0, false⟩,
        ⟨StepKind.AdjustConcreteType, 1, 0, false⟩]).append
        (RewritePath.mk [⟨StepKind.ApplyRewriteRule, 0, 0, false⟩,
          ⟨StepKind.AdjustConcreteType, 1, 0, false⟩]).invert).steps =
      some [Sym.atom 1, Sym.concrete 5 [[7]]]) :=
  ⟨by decide, rewritePath_invert_roundtrip sampleSys
    (RewritePath.mk [⟨StepKind.ApplyRewriteRule, 0, 0, false⟩,
      ⟨StepKind.AdjustConcreteType, 1, 0, false⟩])
    [Sym.atom 1, Sym.concrete 5 [[7]]]
    [Sym.atom 0, Sym.concrete 5 [[0, 7]]] (by decide)⟩

/-- C6: after `markDeleted` succeeds on rule `i`: that rule reports
deleted while keeping its sides; the rule table keeps its length and
every other index is unchanged (append-only storage, never compacted,
so every RuleID stays a valid non-shifted index); and `simplify` never
applies the deleted rule again — no step it records references `i`. -/
theorem markDeleted_invisibility (sys sys' : RewriteSystem) (i : Nat)
    (h : sys.markDeleted i = some sys') :
    (∃ r r', sys.rules[i]? = some r ∧ sys'.rules[i]? = some r' ∧
      r'.isDeleted = true ∧ r'.lhs = r.lhs ∧ r'.rhs = r.rhs) ∧
    sys'.rules.length = sys.rules.length ∧
    (∀ j, j ≠ i → sys'.rules[j]? = sys.rules[j]?) ∧
    ∀ (t : List Sym) (st : RewriteStep),
      st ∈ (sys'.simplify t).2 → st.ruleID ≠ i := by
  unfold RewriteSystem.markDeleted at h
  cases hri : sys.rules[i]? with
  | none => rw [hri] at h; cases h
  | some r =>
    rw [hri] at h
    have h' : (match r.markDeleted with
      | none => none
      | some r' => some { sys with rules := sys.rules.set i r' }) =
        some sys' := h
    clear h
    unfold Rule.markDeleted at h'
    by_cases hdel : r.deleted = true
    · rw [if_pos hdel] at h'
      simp at h'
    · rw [if_neg hdel] at h'
      have hsys' : sys' =
          { sys with rules := sys.rules.set i { r with deleted := true } } :=
        (Option.some.inj h').symm
      have hlen : i < sys.rules.length := by
        by_contra hc
        rw [List.getElem?_eq_none_iff.mpr (by omega)] at hri
        cases hri
      have hgeti : sys'.rules[i]? = some { r with deleted := true } := by
        rw [hsys']
        exact List.getElem?_set_self hlen
      refine ⟨⟨r, { r with deleted := true }, rfl, hgeti, rfl, rfl, rfl⟩,
        ?_, ?_, ?_⟩

      · rw [hsys']
        simp
      · intro j hj
        rw [hsys']
        exact List.getElem?_set_ne (Ne.symm hj)
      · intro t st hst
        obtain ⟨_, _, r0, hr0, hd0⟩ :=
          (simplifyFuel_steps sys' (fuelBound sys' t) t).2 st hst
        intro heqi
        rw [heqi, hgeti] at hr0
        have : r0 = { r with deleted := true } :=
          (Option.some.inj hr0).symm
        rw [this] at hd0
        cases hd0

theorem markDeleted_invisibility_witness :
    sampleSys.markDeleted 0 =
      some ⟨[⟨[Sym.atom 1], [Sym.atom 0], true⟩],
        [([Sym.atom 1], 0)], []⟩ ∧
    ((∃ r r', sampleSys.rules[0]? = some r ∧
      (⟨[⟨[Sym.atom 1], [Sym.atom 0], true⟩], [([Sym.atom 1], 0)], []⟩ :
        RewriteSystem).rules[0]? = some r' ∧
      r'.isDeleted = true ∧ r'.lhs = r.lhs ∧ r'.rhs = r.rhs) ∧
    (⟨[⟨[Sym.atom 1], [Sym.atom 0], true⟩], [([Sym.atom 1], 0)], []⟩ :
      RewriteSystem).rules.length = sampleSys.rules.length ∧
    (∀ j, j ≠ 0 →
      (⟨[⟨[Sym.atom 1], [Sym.atom 0], true⟩], [([Sym.atom 1], 0)], []⟩ :
        RewriteSystem).rules[j]? = sampleSys.rules[j]?) ∧
    ∀ (t : List Sym) (st : RewriteStep),
      st ∈ ((⟨[⟨[Sym.atom 1], [Sym.atom 0], true⟩],
        [([Sym.atom 1], 0)], []⟩ : RewriteSystem).simplify t).2 →
      st.ruleID ≠ 0) :=
  ⟨by decide, markDeleted_invisibility sampleSys
    ⟨[⟨[Sym.atom 1], [Sym.atom 0], true⟩], [([Sym.atom 1], 0)], []⟩ 0
    (by decide)⟩

end Rewriting
